import Mathlib

/-!
# Verification of quickwit's `MemorySizedCache`

A shallow embedding of `quickwit-storage/src/cache/memory_sized_cache.rs`:
a byte-budgeted LRU cache with an anti-thrashing guard.

Modelling choices:
* `OwnedBytes` is a list of bytes (`List Nat`); cloning an `OwnedBytes` shares
  the buffer, so a clone is the value itself.
* `Instant` is a `Nat` timestamp of a monotonic clock; `now.duration_since t`
  is truncated subtraction `now - t` (the Rust `Instant::duration_since`
  saturates at zero).
* The `lru::LruCache` is a list of `(key, (instant, value))` entries kept in
  recency order, least-recently-used first, most-recently-used last.
  `get_mut` promotes the entry it finds to the MRU end, `put` inserts at the
  MRU end, `peek_lru` reads the head, `pop_lru` removes the head.
* `usize`/`u64` counters are `Nat`, the `i64` prometheus gauges are `Int`.
  Subtraction on the `Nat` counters is truncated; on every reachable state the
  code only subtracts quantities it previously added, which the invariant
  proofs make explicit.
* Each operation takes the clock reading `now` as an explicit argument
  (the code calls `Instant::now()` once per operation).
-/

namespace Quickwit

/-- Byte buffer (`OwnedBytes`): an immutable, cheaply clonable byte slice. -/
abbrev OwnedBytes := List Nat

/-- `Capacity` from `memory_sized_cache.rs`: unlimited or a byte ceiling. -/
inductive Capacity where
  | Unlimited : Capacity
  | InBytes (capacity_in_bytes : Nat) : Capacity
deriving DecidableEq, Repr

/-- `Capacity::exceeds_capacity`: `Unlimited` is never exceeded; `InBytes c`
is exceeded iff `num_bytes > c`. -/
def Capacity.exceeds_capacity : Capacity → Nat → Bool
  | Capacity.Unlimited, _ => false
  | Capacity.InBytes capacity_in_bytes, num_bytes => decide (num_bytes > capacity_in_bytes)

/-- The cache-relevant counters of `CacheMetrics`: the two resident gauges
(`i64`, inc/dec'd by the cache) and the hit/miss counters. -/
structure CacheMetrics where
  in_cache_count : Int
  in_cache_num_bytes : Int
  hits_num_items : Nat
  hits_num_bytes : Nat
  misses_num_items : Nat
deriving DecidableEq, Repr

/-- `NeedMutMemorySizedCache<K>`: the guarded cache state. The `lru_cache`
list is ordered least-recently-used first. -/
structure NeedMutMemorySizedCache (K : Type) where
  lru_cache : List (K × Nat × OwnedBytes)
  num_items : Nat
  num_bytes : Nat
  capacity : Capacity
  cache_counters : CacheMetrics
deriving DecidableEq

/-- `LruCache::pop(&key)`: remove the entry with the given key (if any),
returning it together with the remaining list (recency order preserved). -/
def lru_pop {K : Type} [DecidableEq K] (l : List (K × Nat × OwnedBytes)) (key : K) :
    Option (Nat × OwnedBytes) × List (K × Nat × OwnedBytes) :=
  match l with
  | [] => (none, [])
  | (k, t, v) :: rest =>
    if k = key then (some (t, v), rest)
    else
      let r := lru_pop rest key
      (r.1, (k, t, v) :: r.2)

/-- `LruCache::put(key, (t, v))`: remove any existing entry for `key`, then
insert `(key, (t, v))` at the most-recently-used end. -/
def lru_put {K : Type} [DecidableEq K] (l : List (K × Nat × OwnedBytes)) (key : K)
    (t : Nat) (v : OwnedBytes) : List (K × Nat × OwnedBytes) :=
  (lru_pop l key).2 ++ [(key, t, v)]

/-- `NeedMutMemorySizedCache::with_capacity`: fresh empty state. -/
def NeedMutMemorySizedCache.with_capacity (K : Type) (capacity : Capacity)
    (cache_counters : CacheMetrics) : NeedMutMemorySizedCache K :=
  { lru_cache := []
    num_items := 0
    num_bytes := 0
    capacity := capacity
    cache_counters := cache_counters }

/-- `NeedMutMemorySizedCache::record_item`: account one entry in. -/
def NeedMutMemorySizedCache.record_item {K : Type} (c : NeedMutMemorySizedCache K)
    (num_bytes : Nat) : NeedMutMemorySizedCache K :=
  { c with
    num_items := c.num_items + 1
    num_bytes := c.num_bytes + num_bytes
    cache_counters :=
      { c.cache_counters with
        in_cache_count := c.cache_counters.in_cache_count + 1
        in_cache_num_bytes := c.cache_counters.in_cache_num_bytes + (num_bytes : Int) } }

/-- `NeedMutMemorySizedCache::drop_item`: account one entry out. -/
def NeedMutMemorySizedCache.drop_item {K : Type} (c : NeedMutMemorySizedCache K)
    (num_bytes : Nat) : NeedMutMemorySizedCache K :=
  { c with
    num_items := c.num_items - 1
    num_bytes := c.num_bytes - num_bytes
    cache_counters :=
      { c.cache_counters with
        in_cache_count := c.cache_counters.in_cache_count - 1
        in_cache_num_bytes := c.cache_counters.in_cache_num_bytes - (num_bytes : Int) } }

/-- `NeedMutMemorySizedCache::get`: look up `cache_key`; on a hit, promote the
entry to most-recently-used, refresh its instant to `now`, bump the hit
counters and return a clone of the value; on a miss bump the miss counter. -/
def NeedMutMemorySizedCache.get {K : Type} [DecidableEq K] (c : NeedMutMemorySizedCache K)
    (cache_key : K) (now : Nat) : Option OwnedBytes × NeedMutMemorySizedCache K :=
  match lru_pop c.lru_cache cache_key with
  | (some (_instant, item), rest) =>
    (some item,
     { c with
       lru_cache := rest ++ [(cache_key, now, item)]
       cache_counters :=
         { c.cache_counters with
           hits_num_items := c.cache_counters.hits_num_items + 1
           hits_num_bytes := c.cache_counters.hits_num_bytes + item.length } })
  | (none, _) =>
    (none,
     { c with
       cache_counters :=
         { c.cache_counters with
           misses_num_items := c.cache_counters.misses_num_items + 1 } })

/-- `DO_NO_EVICT_DURATION_LIMIT` (seconds). -/
def DO_NO_EVICT_DURATION_LIMIT : Nat := 60

/-- The `while` loop of `NeedMutMemorySizedCache::put`: while the capacity is
exceeded by `num_bytes + len`, peek the LRU entry; if it was accessed less
than `DO_NO_EVICT_DURATION_LIMIT` ago, give up (anti-thrashing guard); else
pop it and account it out. On an empty store the code logs a logic error and
gives up. Returns the resulting state and whether the insertion may proceed. -/
def NeedMutMemorySizedCache.eviction_loop {K : Type} [DecidableEq K]
    (c : NeedMutMemorySizedCache K) (now : Nat) (len : Nat) :
    NeedMutMemorySizedCache K × Bool :=
  if c.capacity.exceeds_capacity (c.num_bytes + len) then
    match h : c.lru_cache with
    | [] => (c, false)
    | (_k, instant, bytes) :: rest =>
      if now - instant < DO_NO_EVICT_DURATION_LIMIT then (c, false)
      else
        NeedMutMemorySizedCache.eviction_loop
          (NeedMutMemorySizedCache.drop_item { c with lru_cache := rest } bytes.length)
          now len
  else (c, true)
termination_by c.lru_cache.length
decreasing_by simp [NeedMutMemorySizedCache.drop_item, h]

/-- The replacement-removal phase of `put`: `lru_cache.pop(&key)` followed by
`drop_item` on the previous entry's length, when the key was present. -/
def NeedMutMemorySizedCache.pop_existing {K : Type} [DecidableEq K]
    (c : NeedMutMemorySizedCache K) (key : K) : NeedMutMemorySizedCache K :=
  match lru_pop c.lru_cache key with
  | (some (_instant, previous_data), rest) =>
    NeedMutMemorySizedCache.drop_item { c with lru_cache := rest } previous_data.length
  | (none, _) => c

/-- `NeedMutMemorySizedCache::put`, instrumented with a boolean telling
whether the entry was actually recorded and inserted (`false` when the
oversized guard, the anti-thrashing guard or the empty-store error branch
returned early). -/
def NeedMutMemorySizedCache.put_core {K : Type} [DecidableEq K]
    (c : NeedMutMemorySizedCache K) (key : K) (bytes : OwnedBytes) (now : Nat) :
    NeedMutMemorySizedCache K × Bool :=
  if c.capacity.exceeds_capacity bytes.length then (c, false)
  else
    match (c.pop_existing key).eviction_loop now bytes.length with
    | (c2, true) =>
      let c3 := c2.record_item bytes.length
      ({ c3 with lru_cache := lru_put c3.lru_cache key now bytes }, true)
    | (c2, false) => (c2, false)

/-- `NeedMutMemorySizedCache::put`: the state after the call. -/
def NeedMutMemorySizedCache.put {K : Type} [DecidableEq K]
    (c : NeedMutMemorySizedCache K) (key : K) (bytes : OwnedBytes) (now : Nat) :
    NeedMutMemorySizedCache K :=
  (c.put_core key bytes now).1

/-- `Drop for NeedMutMemorySizedCache`: on teardown, subtract the final
resident counters from the metrics gauges; the result is the metrics state
after the cache is gone. -/
def NeedMutMemorySizedCache.drop {K : Type} (c : NeedMutMemorySizedCache K) : CacheMetrics :=
  { c.cache_counters with
    in_cache_count := c.cache_counters.in_cache_count - (c.num_items : Int)
    in_cache_num_bytes := c.cache_counters.in_cache_num_bytes - (c.num_bytes : Int) }

/-- One externally visible cache operation (through the `MemorySizedCache`
facade), tagged with the clock reading at which it runs. -/
inductive CacheOp (K : Type) where
  | get (key : K) (now : Nat) : CacheOp K
  | put (key : K) (bytes : OwnedBytes) (now : Nat) : CacheOp K

/-- Apply one operation to the guarded state. -/
def applyOp {K : Type} [DecidableEq K] (c : NeedMutMemorySizedCache K) :
    CacheOp K → NeedMutMemorySizedCache K
  | CacheOp.get key now => (c.get key now).2
  | CacheOp.put key bytes now => c.put key bytes now

/-- Run a sequence of operations left to right. -/
def runOps {K : Type} [DecidableEq K] (c : NeedMutMemorySizedCache K) :
    List (CacheOp K) → NeedMutMemorySizedCache K
  | [] => c
  | op :: ops => runOps (applyOp c op) ops

/-- Total byte length of the values of the entries of an LRU list. -/
def sum_bytes {K : Type} (l : List (K × Nat × OwnedBytes)) : Nat :=
  (l.map (fun e => e.2.2.length)).sum

/-- The keys of the resident entries, in recency order. -/
def keysOf {K : Type} (c : NeedMutMemorySizedCache K) : List K :=
  c.lru_cache.map Prod.fst

/-- The accounting invariant of the cache state: the item counter matches the
store's size, the byte counter matches the total value length, and keys are
unique. -/
def Inv {K : Type} (c : NeedMutMemorySizedCache K) : Prop :=
  c.num_items = c.lru_cache.length ∧
  c.num_bytes = sum_bytes c.lru_cache ∧
  (c.lru_cache.map Prod.fst).Nodup

/-- The invariant extended with the metrics-gauge relation: the gauges sit
exactly `num_items`/`num_bytes` above their values `m0` at construction. -/
def InvFull {K : Type} (m0 : CacheMetrics) (c : NeedMutMemorySizedCache K) : Prop :=
  Inv c ∧
  c.cache_counters.in_cache_count = m0.in_cache_count + (c.num_items : Int) ∧
  c.cache_counters.in_cache_num_bytes = m0.in_cache_num_bytes + (c.num_bytes : Int)

/-- Fuel-indexed version of the eviction loop, structurally recursive on the
fuel; `none` means the fuel ran out before the loop finished. One unit of
fuel is spent per entry actually evicted. -/
def eviction_loop_fuel {K : Type} [DecidableEq K] (fuel : Nat)
    (c : NeedMutMemorySizedCache K) (now : Nat) (len : Nat) :
    Option (NeedMutMemorySizedCache K × Bool) :=
  if c.capacity.exceeds_capacity (c.num_bytes + len) then
    match c.lru_cache with
    | [] => some (c, false)
    | (_k, instant, bytes) :: rest =>
      if now - instant < DO_NO_EVICT_DURATION_LIMIT then some (c, false)
      else
        match fuel with
        | 0 => none
        | fuel' + 1 =>
          eviction_loop_fuel fuel'
            (NeedMutMemorySizedCache.drop_item { c with lru_cache := rest } bytes.length)
            now len
  else some (c, true)

namespace NeedMutMemorySizedCache

/-! ### Unfolding lemmas for the eviction loop -/

theorem eviction_loop_done {K : Type} [DecidableEq K] (c : NeedMutMemorySizedCache K)
    (now len : Nat)
    (h : c.capacity.exceeds_capacity (c.num_bytes + len) = false) :
    c.eviction_loop now len = (c, true) := by
  rw [eviction_loop]
  simp [h]

theorem eviction_loop_empty {K : Type} [DecidableEq K] (c : NeedMutMemorySizedCache K)
    (now len : Nat)
    (h : c.capacity.exceeds_capacity (c.num_bytes + len) = true)
    (h2 : c.lru_cache = []) :
    c.eviction_loop now len = (c, false) := by
  obtain ⟨lru, ni, nb, cap, cc⟩ := c
  simp only at h2
  subst h2
  rw [eviction_loop]
  simp_all

theorem eviction_loop_young {K : Type} [DecidableEq K] (c : NeedMutMemorySizedCache K)
    (now len : Nat) (k : K) (t : Nat) (v : OwnedBytes) (rest : List (K × Nat × OwnedBytes))
    (h : c.capacity.exceeds_capacity (c.num_bytes + len) = true)
    (h2 : c.lru_cache = (k, t, v) :: rest)
    (h3 : now - t < DO_NO_EVICT_DURATION_LIMIT) :
    c.eviction_loop now len = (c, false) := by
  obtain ⟨lru, ni, nb, cap, cc⟩ := c
  simp only at h2
  subst h2
  rw [eviction_loop]
  simp_all

theorem eviction_loop_evict {K : Type} [DecidableEq K] (c : NeedMutMemorySizedCache K)
    (now len : Nat) (k : K) (t : Nat) (v : OwnedBytes) (rest : List (K × Nat × OwnedBytes))
    (h : c.capacity.exceeds_capacity (c.num_bytes + len) = true)
    (h2 : c.lru_cache = (k, t, v) :: rest)
    (h3 : ¬ (now - t < DO_NO_EVICT_DURATION_LIMIT)) :
    c.eviction_loop now len =
      (NeedMutMemorySizedCache.drop_item { c with lru_cache := rest } v.length).eviction_loop
        now len := by
  obtain ⟨lru, ni, nb, cap, cc⟩ := c
  simp only at h2
  subst h2
  rw [eviction_loop]
  simp_all

end NeedMutMemorySizedCache

/-! ### Unfolding lemmas for the fuel-indexed loop -/

theorem eviction_loop_fuel_done {K : Type} [DecidableEq K] (fuel : Nat)
    (c : NeedMutMemorySizedCache K) (now len : Nat)
    (h : c.capacity.exceeds_capacity (c.num_bytes + len) = false) :
    eviction_loop_fuel fuel c now len = some (c, true) := by
  rw [eviction_loop_fuel]
  simp [h]

theorem eviction_loop_fuel_empty {K : Type} [DecidableEq K] (fuel : Nat)
    (c : NeedMutMemorySizedCache K) (now len : Nat)
    (h : c.capacity.exceeds_capacity (c.num_bytes + len) = true)
    (h2 : c.lru_cache = []) :
    eviction_loop_fuel fuel c now len = some (c, false) := by
  obtain ⟨lru, ni, nb, cap, cc⟩ := c
  simp only at h2
  subst h2
  rw [eviction_loop_fuel]
  simp_all

theorem eviction_loop_fuel_young {K : Type} [DecidableEq K] (fuel : Nat)
    (c : NeedMutMemorySizedCache K) (now len : Nat) (k : K) (t : Nat) (v : OwnedBytes)
    (rest : List (K × Nat × OwnedBytes))
    (h : c.capacity.exceeds_capacity (c.num_bytes + len) = true)
    (h2 : c.lru_cache = (k, t, v) :: rest)
    (h3 : now - t < DO_NO_EVICT_DURATION_LIMIT) :
    eviction_loop_fuel fuel c now len = some (c, false) := by
  obtain ⟨lru, ni, nb, cap, cc⟩ := c
  simp only at h2
  subst h2
  rw [eviction_loop_fuel]
  simp_all

theorem eviction_loop_fuel_evict {K : Type} [DecidableEq K] (fuel : Nat)
    (c : NeedMutMemorySizedCache K) (now len : Nat) (k : K) (t : Nat) (v : OwnedBytes)
    (rest : List (K × Nat × OwnedBytes))
    (h : c.capacity.exceeds_capacity (c.num_bytes + len) = true)
    (h2 : c.lru_cache = (k, t, v) :: rest)
    (h3 : ¬ (now - t < DO_NO_EVICT_DURATION_LIMIT)) :
    eviction_loop_fuel (fuel + 1) c now len =
      eviction_loop_fuel fuel
        (NeedMutMemorySizedCache.drop_item { c with lru_cache := rest } v.length) now len := by
  obtain ⟨lru, ni, nb, cap, cc⟩ := c
  simp only at h2
  subst h2
  rw [eviction_loop_fuel]
  simp_all

/-- With at least `c.lru_cache.length` units of fuel, the fuel-indexed loop
terminates and agrees with the eviction loop: each iteration that does not
return pops one entry, so the loop runs at most store-size-many iterations. -/
theorem eviction_loop_fuel_sufficient {K : Type} [DecidableEq K] (fuel : Nat) :
    ∀ (c : NeedMutMemorySizedCache K) (now len : Nat),
      c.lru_cache.length ≤ fuel →
      eviction_loop_fuel fuel c now len = some (c.eviction_loop now len) := by
  induction fuel with
  | zero =>
    intro c now len hle
    have hnil : c.lru_cache = [] := List.length_eq_zero.mp (Nat.le_zero.mp hle)
    by_cases hex : c.capacity.exceeds_capacity (c.num_bytes + len)
    · rw [NeedMutMemorySizedCache.eviction_loop_empty c now len hex hnil,
        eviction_loop_fuel_empty 0 c now len hex hnil]
    · rw [NeedMutMemorySizedCache.eviction_loop_done c now len (by simpa using hex),
        eviction_loop_fuel_done 0 c now len (by simpa using hex)]
  | succ fuel ih =>
    intro c now len hle
    by_cases hex : c.capacity.exceeds_capacity (c.num_bytes + len)
    · match h2 : c.lru_cache with
      | [] =>
        rw [NeedMutMemorySizedCache.eviction_loop_empty c now len hex h2,
          eviction_loop_fuel_empty (fuel + 1) c now len hex h2]
      | (k, t, v) :: rest =>
        by_cases h3 : now - t < DO_NO_EVICT_DURATION_LIMIT
        · rw [NeedMutMemorySizedCache.eviction_loop_young c now len k t v rest hex h2 h3,
            eviction_loop_fuel_young (fuel + 1) c now len k t v rest hex h2 h3]
        · rw [NeedMutMemorySizedCache.eviction_loop_evict c now len k t v rest hex h2 h3,
            eviction_loop_fuel_evict fuel c now len k t v rest hex h2 h3]
          apply ih
          simp only [NeedMutMemorySizedCache.drop_item]
          have : rest.length + 1 ≤ fuel + 1 := by simpa [h2] using hle
          omega
    · rw [NeedMutMemorySizedCache.eviction_loop_done c now len (by simpa using hex),
        eviction_loop_fuel_done (fuel + 1) c now len (by simpa using hex)]

/-- Evaluation principle: a concrete run of the fuel-indexed loop with
store-size fuel determines the eviction loop's value. -/
theorem eviction_loop_eval {K : Type} [DecidableEq K] {c : NeedMutMemorySizedCache K}
    {now len : Nat} {r : NeedMutMemorySizedCache K × Bool}
    (h : eviction_loop_fuel c.lru_cache.length c now len = some r) :
    c.eviction_loop now len = r := by
  have := eviction_loop_fuel_sufficient c.lru_cache.length c now len le_rfl
  rw [h] at this
  exact (Option.some_inj.mp this).symm

/-! ### Lemmas about `lru_pop` and `sum_bytes` -/

@[simp]
theorem sum_bytes_nil {K : Type} : sum_bytes ([] : List (K × Nat × OwnedBytes)) = 0 := rfl

@[simp]
theorem sum_bytes_cons {K : Type} (e : K × Nat × OwnedBytes) (l : List (K × Nat × OwnedBytes)) :
    sum_bytes (e :: l) = e.2.2.length + sum_bytes l := by
  simp [sum_bytes]

@[simp]
theorem sum_bytes_append {K : Type} (l1 l2 : List (K × Nat × OwnedBytes)) :
    sum_bytes (l1 ++ l2) = sum_bytes l1 + sum_bytes l2 := by
  simp [sum_bytes]

/-- `lru_pop` finds nothing exactly when the key is absent. -/
theorem lru_pop_fst_eq_none_iff {K : Type} [DecidableEq K] (l : List (K × Nat × OwnedBytes))
    (key : K) :
    (lru_pop l key).1 = none ↔ key ∉ l.map Prod.fst := by
  induction l with
  | nil => simp [lru_pop]
  | cons e rest ih =>
    obtain ⟨k, t, v⟩ := e
    by_cases hk : k = key
    · subst hk
      simp [lru_pop]
    · simp only [lru_pop, if_neg hk, List.map_cons, List.mem_cons]
      rw [ih]
      constructor
      · rintro hnot (hkey | hmem)
        · exact hk hkey.symm
        · exact hnot hmem
      · intro hnot hmem
        exact hnot (Or.inr hmem)

/-- When `lru_pop` finds nothing, the list is returned unchanged. -/
theorem lru_pop_snd_of_none {K : Type} [DecidableEq K] {l : List (K × Nat × OwnedBytes)}
    {key : K} (h : (lru_pop l key).1 = none) : (lru_pop l key).2 = l := by
  induction l with
  | nil => simp [lru_pop]
  | cons e rest ih =>
    obtain ⟨k, t, v⟩ := e
    by_cases hk : k = key
    · simp [lru_pop, hk] at h
    · simp only [lru_pop, if_neg hk] at h ⊢
      rw [ih h]

/-- When `lru_pop` finds an entry, it decomposes the list around the first
entry with the given key and removes exactly that entry. -/
theorem lru_pop_fst_eq_some {K : Type} [DecidableEq K] {l : List (K × Nat × OwnedBytes)}
    {key : K} {t : Nat} {v : OwnedBytes} (h : (lru_pop l key).1 = some (t, v)) :
    ∃ l1 l2, l = l1 ++ (key, t, v) :: l2 ∧ (lru_pop l key).2 = l1 ++ l2 ∧
      key ∉ l1.map Prod.fst := by
  induction l with
  | nil => simp [lru_pop] at h
  | cons e rest ih =>
    obtain ⟨k, t0, v0⟩ := e
    by_cases hk : k = key
    · subst hk
      simp only [lru_pop, if_pos rfl] at h ⊢
      obtain ⟨ht, hv⟩ := Prod.mk.injEq .. ▸ Option.some_inj.mp h
      exact ⟨[], rest, by simp [ht, hv], by simp, by simp⟩
    · simp only [lru_pop, if_neg hk] at h ⊢
      obtain ⟨l1, l2, hdecomp, hsnd, hnot⟩ := ih h
      refine ⟨(k, t0, v0) :: l1, l2, by simp [hdecomp], by simp [hsnd], ?_⟩
      simp only [List.map_cons, List.mem_cons]
      rintro (hkey | hmem)
      · exact hk hkey.symm
      · exact hnot hmem

/-! ### Projection lemmas for the accounting helpers -/

@[simp]
theorem drop_item_lru_cache {K : Type} (c : NeedMutMemorySizedCache K) (n : Nat) :
    (c.drop_item n).lru_cache = c.lru_cache := rfl

@[simp]
theorem drop_item_num_items {K : Type} (c : NeedMutMemorySizedCache K) (n : Nat) :
    (c.drop_item n).num_items = c.num_items - 1 := rfl

@[simp]
theorem drop_item_num_bytes {K : Type} (c : NeedMutMemorySizedCache K) (n : Nat) :
    (c.drop_item n).num_bytes = c.num_bytes - n := rfl

@[simp]
theorem drop_item_capacity {K : Type} (c : NeedMutMemorySizedCache K) (n : Nat) :
    (c.drop_item n).capacity = c.capacity := rfl

@[simp]
theorem record_item_lru_cache {K : Type} (c : NeedMutMemorySizedCache K) (n : Nat) :
    (c.record_item n).lru_cache = c.lru_cache := rfl

@[simp]
theorem record_item_num_items {K : Type} (c : NeedMutMemorySizedCache K) (n : Nat) :
    (c.record_item n).num_items = c.num_items + 1 := rfl

@[simp]
theorem record_item_num_bytes {K : Type} (c : NeedMutMemorySizedCache K) (n : Nat) :
    (c.record_item n).num_bytes = c.num_bytes + n := rfl

@[simp]
theorem record_item_capacity {K : Type} (c : NeedMutMemorySizedCache K) (n : Nat) :
    (c.record_item n).capacity = c.capacity := rfl

/-! ### Preservation of the invariant by the eviction loop -/

/-- The eviction loop preserves the full invariant, only ever removes
entries, keeps the capacity, never increases `num_bytes`, and when it allows
the insertion the capacity check at `num_bytes + len` has just failed. -/
theorem eviction_loop_spec {K : Type} [DecidableEq K] (m0 : CacheMetrics) :
    ∀ (n : Nat) (c : NeedMutMemorySizedCache K) (now len : Nat),
      c.lru_cache.length = n → InvFull m0 c →
      InvFull m0 (c.eviction_loop now len).1 ∧
      (∀ e, e ∈ (c.eviction_loop now len).1.lru_cache → e ∈ c.lru_cache) ∧
      (c.eviction_loop now len).1.capacity = c.capacity ∧
      (c.eviction_loop now len).1.num_bytes ≤ c.num_bytes ∧
      ((c.eviction_loop now len).2 = true →
        c.capacity.exceeds_capacity
          ((c.eviction_loop now len).1.num_bytes + len) = false) := by
  intro n
  induction n using Nat.strong_induction_on with
  | _ n ih =>
    intro c now len hn hinv
    by_cases hex : c.capacity.exceeds_capacity (c.num_bytes + len)
    · match h2 : c.lru_cache with
      | [] =>
        rw [NeedMutMemorySizedCache.eviction_loop_empty c now len hex h2]
        exact ⟨hinv, fun e he => by simpa [h2] using he, rfl, le_rfl,
          fun hfalse => by simp at hfalse⟩
      | (k, t, v) :: rest =>
        by_cases h3 : now - t < DO_NO_EVICT_DURATION_LIMIT
        · rw [NeedMutMemorySizedCache.eviction_loop_young c now len k t v rest hex h2 h3]
          exact ⟨hinv, fun e he => by simpa [h2] using he, rfl, le_rfl,
            fun hfalse => by simp at hfalse⟩
        · rw [NeedMutMemorySizedCache.eviction_loop_evict c now len k t v rest hex h2 h3]
          obtain ⟨⟨hitems, hbytes, hnodup⟩, hic, hib⟩ := hinv
          have hitems' : c.num_items = rest.length + 1 := by
            rw [hitems, h2]; simp
          have hbytes' : c.num_bytes = v.length + sum_bytes rest := by
            rw [hbytes, h2]; simp
          have hinv' :
              InvFull m0
                (NeedMutMemorySizedCache.drop_item { c with lru_cache := rest } v.length) := by
            refine ⟨⟨?_, ?_, ?_⟩, ?_, ?_⟩
            · simp [hitems']
            · simp [hbytes']
            · have := hnodup
              rw [h2] at this
              simpa using this.of_cons
            · simp only [NeedMutMemorySizedCache.drop_item]
              rw [hic]
              omega
            · simp only [NeedMutMemorySizedCache.drop_item]
              rw [hib]
              omega
          have hlt : rest.length < n := by
            rw [← hn, h2]; simp
          obtain ⟨ha, hb, hc, hd, he⟩ :=
            ih rest.length hlt
              (NeedMutMemorySizedCache.drop_item { c with lru_cache := rest } v.length)
              now len (by simp) hinv'
          refine ⟨ha, ?_, ?_, ?_, ?_⟩
          · intro e hmem
            have := hb e hmem
            simp only [drop_item_lru_cache] at this
            exact List.mem_cons_of_mem _ this
          · rw [hc]; simp
          · exact le_trans hd (Nat.sub_le _ _)
          · intro htrue
            exact he htrue
    · rw [NeedMutMemorySizedCache.eviction_loop_done c now len (by simpa using hex)]
      refine ⟨hinv, fun e he => he, rfl, le_rfl, fun _ => by simpa using hex⟩

/-! ### Reduction lemmas for `pop_existing` and `get` -/

theorem pop_existing_of_none {K : Type} [DecidableEq K] {c : NeedMutMemorySizedCache K}
    {key : K} (hr : (lru_pop c.lru_cache key).1 = none) :
    c.pop_existing key = c := by
  unfold NeedMutMemorySizedCache.pop_existing
  rcases hp : lru_pop c.lru_cache key with ⟨r, rest⟩
  rw [hp] at hr
  simp only at hr
  subst hr
  rfl

theorem pop_existing_of_some {K : Type} [DecidableEq K] {c : NeedMutMemorySizedCache K}
    {key : K} {t : Nat} {v : OwnedBytes}
    (hr : (lru_pop c.lru_cache key).1 = some (t, v)) :
    c.pop_existing key =
      NeedMutMemorySizedCache.drop_item
        { c with lru_cache := (lru_pop c.lru_cache key).2 } v.length := by
  unfold NeedMutMemorySizedCache.pop_existing
  rcases hp : lru_pop c.lru_cache key with ⟨r, rest⟩
  rw [hp] at hr
  simp only at hr
  subst hr
  rfl

theorem get_of_none {K : Type} [DecidableEq K] {c : NeedMutMemorySizedCache K}
    {cache_key : K} (now : Nat) (hr : (lru_pop c.lru_cache cache_key).1 = none) :
    c.get cache_key now =
      (none,
       { c with
         cache_counters :=
           { c.cache_counters with
             misses_num_items := c.cache_counters.misses_num_items + 1 } }) := by
  unfold NeedMutMemorySizedCache.get
  rcases hp : lru_pop c.lru_cache cache_key with ⟨r, rest⟩
  rw [hp] at hr
  simp only at hr
  subst hr
  rfl

theorem get_of_some {K : Type} [DecidableEq K] {c : NeedMutMemorySizedCache K}
    {cache_key : K} {t : Nat} {v : OwnedBytes} (now : Nat)
    (hr : (lru_pop c.lru_cache cache_key).1 = some (t, v)) :
    c.get cache_key now =
      (some v,
       { c with
         lru_cache := (lru_pop c.lru_cache cache_key).2 ++ [(cache_key, now, v)]
         cache_counters :=
           { c.cache_counters with
             hits_num_items := c.cache_counters.hits_num_items + 1
             hits_num_bytes := c.cache_counters.hits_num_bytes + v.length } }) := by
  unfold NeedMutMemorySizedCache.get
  rcases hp : lru_pop c.lru_cache cache_key with ⟨r, rest⟩
  rw [hp] at hr
  simp only at hr
  subst hr
  rfl

/-! ### Preservation of the invariant by `pop_existing`, `get` and `put` -/

/-- The replacement-removal phase preserves the full invariant, leaves no
entry with the removed key, only removes entries, keeps the capacity and does
not increase `num_bytes`. -/
theorem pop_existing_spec {K : Type} [DecidableEq K] (m0 : CacheMetrics)
    (c : NeedMutMemorySizedCache K) (key : K) (h : InvFull m0 c) :
    InvFull m0 (c.pop_existing key) ∧
    key ∉ (c.pop_existing key).lru_cache.map Prod.fst ∧
    (∀ e, e ∈ (c.pop_existing key).lru_cache → e ∈ c.lru_cache) ∧
    (c.pop_existing key).capacity = c.capacity ∧
    (c.pop_existing key).num_bytes ≤ c.num_bytes := by
  obtain ⟨⟨hitems, hbytes, hnodup⟩, hic, hib⟩ := h
  rcases hr : (lru_pop c.lru_cache key).1 with _ | ⟨t, v⟩
  · have hkey := (lru_pop_fst_eq_none_iff c.lru_cache key).mp hr
    rw [pop_existing_of_none hr]
    exact ⟨⟨⟨hitems, hbytes, hnodup⟩, hic, hib⟩, hkey, fun e he => he, rfl, le_rfl⟩
  · have hpe := pop_existing_of_some hr
    obtain ⟨l1, l2, hdecomp, hsnd, hnot1⟩ := lru_pop_fst_eq_some hr
    have hlen : c.lru_cache.length = l1.length + l2.length + 1 := by
      rw [hdecomp]; simp; omega
    have hsum : sum_bytes c.lru_cache = sum_bytes l1 + v.length + sum_bytes l2 := by
      rw [hdecomp]; simp; ring
    have hmainnd : (l1.map Prod.fst ++ key :: l2.map Prod.fst).Nodup := by
      rw [hdecomp] at hnodup; simpa using hnodup
    obtain ⟨hnd1, hndc, hdisj⟩ := List.nodup_append.mp hmainnd
    have hkey2 : key ∉ l2.map Prod.fst := (List.nodup_cons.mp hndc).1
    have hnd12 : ((l1 ++ l2).map Prod.fst).Nodup := by
      rw [List.map_append]
      exact List.nodup_append.mpr
        ⟨hnd1, hndc.of_cons, fun a ha1 ha2 => hdisj ha1 (List.mem_cons_of_mem _ ha2)⟩
    rw [hpe]
    refine ⟨⟨⟨?_, ?_, ?_⟩, ?_, ?_⟩, ?_, ?_, rfl, ?_⟩
    · simp only [drop_item_num_items, drop_item_lru_cache]
      rw [hsnd]
      simp only [List.length_append]
      omega
    · simp only [drop_item_num_bytes, drop_item_lru_cache]
      rw [hsnd, sum_bytes_append]
      omega
    · simp only [drop_item_lru_cache]
      rw [hsnd]
      exact hnd12
    · simp only [NeedMutMemorySizedCache.drop_item]
      rw [hic]
      omega
    · simp only [NeedMutMemorySizedCache.drop_item]
      rw [hib]
      omega
    · simp only [drop_item_lru_cache]
      rw [hsnd, List.map_append]
      simp only [List.mem_append]
      rintro (h1 | h2)
      · exact hnot1 h1
      · exact hkey2 h2
    · intro e he
      simp only [drop_item_lru_cache] at he
      rw [hsnd] at he
      rw [hdecomp]
      rcases List.mem_append.mp he with h1 | h2
      · exact List.mem_append.mpr (Or.inl h1)
      · exact List.mem_append.mpr (Or.inr (List.mem_cons_of_mem _ h2))
    · simp

/-- `get` preserves the full invariant. -/
theorem InvFull_get {K : Type} [DecidableEq K] (m0 : CacheMetrics)
    (c : NeedMutMemorySizedCache K) (key : K) (now : Nat) (h : InvFull m0 c) :
    InvFull m0 (c.get key now).2 := by
  obtain ⟨⟨hitems, hbytes, hnodup⟩, hic, hib⟩ := h
  rcases hr : (lru_pop c.lru_cache key).1 with _ | ⟨t, v⟩
  · rw [get_of_none now hr]
    exact ⟨⟨hitems, hbytes, hnodup⟩, hic, hib⟩
  · rw [get_of_some now hr]
    obtain ⟨l1, l2, hdecomp, hsnd, hnot1⟩ := lru_pop_fst_eq_some hr
    have hmainnd : (l1.map Prod.fst ++ key :: l2.map Prod.fst).Nodup := by
      rw [hdecomp] at hnodup; simpa using hnodup
    obtain ⟨hnd1, hndc, hdisj⟩ := List.nodup_append.mp hmainnd
    have hkey2 : key ∉ l2.map Prod.fst := (List.nodup_cons.mp hndc).1
    refine ⟨⟨?_, ?_, ?_⟩, hic, hib⟩
    · rw [hsnd, hitems, hdecomp]
      simp
      try omega
    · rw [hsnd, hbytes, hdecomp]
      simp
      try omega
    · rw [hsnd, List.map_append, List.map_append]
      refine List.nodup_append.mpr ⟨?_, ?_, ?_⟩
      · exact List.nodup_append.mpr
          ⟨hnd1, hndc.of_cons, fun a ha1 ha2 => hdisj ha1 (List.mem_cons_of_mem _ ha2)⟩
      · simp
      · intro a ha hb
        simp at hb
        subst hb
        rcases List.mem_append.mp ha with h1 | h2
        · exact hnot1 h1
        · exact hkey2 h2

/-- `get` leaves the capacity unchanged. -/
theorem get_capacity {K : Type} [DecidableEq K] (c : NeedMutMemorySizedCache K)
    (key : K) (now : Nat) : (c.get key now).2.capacity = c.capacity := by
  rcases hr : (lru_pop c.lru_cache key).1 with _ | ⟨t, v⟩
  · rw [get_of_none now hr]
  · rw [get_of_some now hr]

/-- `get` leaves `num_items` and `num_bytes` unchanged. -/
theorem get_counts {K : Type} [DecidableEq K] (c : NeedMutMemorySizedCache K)
    (key : K) (now : Nat) :
    (c.get key now).2.num_items = c.num_items ∧ (c.get key now).2.num_bytes = c.num_bytes := by
  rcases hr : (lru_pop c.lru_cache key).1 with _ | ⟨t, v⟩
  · rw [get_of_none now hr]; exact ⟨rfl, rfl⟩
  · rw [get_of_some now hr]; exact ⟨rfl, rfl⟩

/-! ### Reduction lemmas for `put_core` -/

theorem put_core_of_oversized {K : Type} [DecidableEq K] {c : NeedMutMemorySizedCache K}
    {key : K} {bytes : OwnedBytes} (now : Nat)
    (h : c.capacity.exceeds_capacity bytes.length = true) :
    c.put_core key bytes now = (c, false) := by
  unfold NeedMutMemorySizedCache.put_core
  simp [h]

theorem put_core_of_abort {K : Type} [DecidableEq K] {c c2 : NeedMutMemorySizedCache K}
    {key : K} {bytes : OwnedBytes} {now : Nat}
    (hov : c.capacity.exceeds_capacity bytes.length = false)
    (hl : (c.pop_existing key).eviction_loop now bytes.length = (c2, false)) :
    c.put_core key bytes now = (c2, false) := by
  unfold NeedMutMemorySizedCache.put_core
  rw [hov, hl]
  rfl

theorem put_core_of_insert {K : Type} [DecidableEq K] {c c2 : NeedMutMemorySizedCache K}
    {key : K} {bytes : OwnedBytes} {now : Nat}
    (hov : c.capacity.exceeds_capacity bytes.length = false)
    (hl : (c.pop_existing key).eviction_loop now bytes.length = (c2, true)) :
    c.put_core key bytes now =
      ({ c2.record_item bytes.length with
          lru_cache := lru_put (c2.record_item bytes.length).lru_cache key now bytes },
       true) := by
  unfold NeedMutMemorySizedCache.put_core
  rw [hov, hl]
  rfl

/-- `put` preserves the full invariant and the capacity. -/
theorem put_spec {K : Type} [DecidableEq K] (m0 : CacheMetrics)
    (c : NeedMutMemorySizedCache K) (key : K) (bytes : OwnedBytes) (now : Nat)
    (h : InvFull m0 c) :
    InvFull m0 (c.put key bytes now) ∧ (c.put key bytes now).capacity = c.capacity := by
  by_cases hov : c.capacity.exceeds_capacity bytes.length
  · rw [NeedMutMemorySizedCache.put, put_core_of_oversized now hov]
    exact ⟨h, rfl⟩
  · obtain ⟨h1, hkey, hsub, hcap, hbl⟩ := pop_existing_spec m0 c key h
    rcases hl : (c.pop_existing key).eviction_loop now bytes.length with ⟨c2, ok⟩
    obtain ⟨h2, hsub2, hcap2, hb2, hexit⟩ :=
      eviction_loop_spec m0 (c.pop_existing key).lru_cache.length
        (c.pop_existing key) now bytes.length rfl h1
    rw [hl] at h2 hsub2 hcap2 hb2 hexit
    cases ok
    · rw [NeedMutMemorySizedCache.put, put_core_of_abort (by simpa using hov) hl]
      exact ⟨h2, by simp only at hcap2; rw [hcap2, hcap]⟩
    · rw [NeedMutMemorySizedCache.put, put_core_of_insert (by simpa using hov) hl]
      simp only at h2 hsub2 hcap2 hb2 hexit
      have hkey2 : key ∉ c2.lru_cache.map Prod.fst := by
        intro hmem
        obtain ⟨e, hemem, hefst⟩ := List.mem_map.mp hmem
        exact hkey (List.mem_map.mpr ⟨e, hsub2 e hemem, hefst⟩)
      have hnone : (lru_pop c2.lru_cache key).1 = none :=
        (lru_pop_fst_eq_none_iff _ _).mpr hkey2
      have hsnd : (lru_pop c2.lru_cache key).2 = c2.lru_cache := lru_pop_snd_of_none hnone
      obtain ⟨⟨hi2, hb2x, hnd2⟩, hic2, hib2⟩ := h2
      refine ⟨⟨⟨?_, ?_, ?_⟩, ?_, ?_⟩, ?_⟩
      · simp only [lru_put, record_item_lru_cache, record_item_num_items, hsnd]
        simp [hi2]
      · simp only [lru_put, record_item_lru_cache, record_item_num_bytes, hsnd]
        simp [hb2x]
      · simp only [lru_put, record_item_lru_cache, hsnd, List.map_append]
        refine List.nodup_append.mpr ⟨hnd2, by simp, ?_⟩
        intro a ha hb
        simp at hb
        subst hb
        exact hkey2 ha
      · simp only [NeedMutMemorySizedCache.record_item]
        rw [hic2]
        omega
      · simp only [NeedMutMemorySizedCache.record_item]
        rw [hib2]
        omega
      · simp only [NeedMutMemorySizedCache.record_item]
        rw [hcap2, hcap]

/-- `applyOp` preserves the full invariant and the capacity. -/
theorem applyOp_spec {K : Type} [DecidableEq K] (m0 : CacheMetrics)
    (c : NeedMutMemorySizedCache K) (op : CacheOp K) (h : InvFull m0 c) :
    InvFull m0 (applyOp c op) ∧ (applyOp c op).capacity = c.capacity := by
  cases op with
  | get key now => exact ⟨InvFull_get m0 c key now h, get_capacity c key now⟩
  | put key bytes now => exact put_spec m0 c key bytes now h

/-- `runOps` preserves the full invariant and the capacity. -/
theorem runOps_spec {K : Type} [DecidableEq K] (m0 : CacheMetrics) :
    ∀ (ops : List (CacheOp K)) (c : NeedMutMemorySizedCache K), InvFull m0 c →
      InvFull m0 (runOps c ops) ∧ (runOps c ops).capacity = c.capacity := by
  intro ops
  induction ops with
  | nil => exact fun c h => ⟨h, rfl⟩
  | cons op ops ih =>
    intro c h
    obtain ⟨h1, hcap⟩ := applyOp_spec m0 c op h
    obtain ⟨h2, hcap2⟩ := ih (applyOp c op) h1
    exact ⟨h2, by rw [runOps, hcap2, hcap]⟩

/-- The freshly constructed cache satisfies the full invariant. -/
theorem InvFull_with_capacity (K : Type) [DecidableEq K] (capacity : Capacity)
    (m0 : CacheMetrics) :
    InvFull m0 (NeedMutMemorySizedCache.with_capacity K capacity m0) := by
  refine ⟨⟨rfl, rfl, by simp [NeedMutMemorySizedCache.with_capacity]⟩, ?_, ?_⟩ <;>
    simp [NeedMutMemorySizedCache.with_capacity]

/-- `pop_existing` leaves the capacity unchanged. -/
theorem pop_existing_capacity {K : Type} [DecidableEq K] (c : NeedMutMemorySizedCache K)
    (key : K) : (c.pop_existing key).capacity = c.capacity := by
  rcases hr : (lru_pop c.lru_cache key).1 with _ | ⟨t, v⟩
  · rw [pop_existing_of_none hr]
  · rw [pop_existing_of_some hr]
    rfl

/-- Under a bounded capacity, `put` cannot push `num_bytes` above the bound. -/
theorem put_num_bytes_le {K : Type} [DecidableEq K] (B : Nat) (m0 : CacheMetrics)
    (c : NeedMutMemorySizedCache K) (key : K) (bytes : OwnedBytes) (now : Nat)
    (h : InvFull m0 c) (hcap : c.capacity = Capacity.InBytes B) (hle : c.num_bytes ≤ B) :
    (c.put key bytes now).num_bytes ≤ B := by
  by_cases hov : c.capacity.exceeds_capacity bytes.length
  · rw [NeedMutMemorySizedCache.put, put_core_of_oversized now hov]
    exact hle
  · obtain ⟨h1, hkey, hsub, hcapp, hbl⟩ := pop_existing_spec m0 c key h
    rcases hl : (c.pop_existing key).eviction_loop now bytes.length with ⟨c2, ok⟩
    obtain ⟨h2, hsub2, hcap2, hb2, hexit⟩ :=
      eviction_loop_spec m0 (c.pop_existing key).lru_cache.length
        (c.pop_existing key) now bytes.length rfl h1
    rw [hl] at h2 hsub2 hcap2 hb2 hexit
    simp only at h2 hsub2 hcap2 hb2 hexit
    cases ok
    · rw [NeedMutMemorySizedCache.put, put_core_of_abort (by simpa using hov) hl]
      exact le_trans hb2 (le_trans hbl hle)
    · rw [NeedMutMemorySizedCache.put, put_core_of_insert (by simpa using hov) hl]
      have hx := hexit rfl
      rw [hcapp, hcap] at hx
      simp [Capacity.exceeds_capacity] at hx
      simpa using hx

/-- Under a bounded capacity, no operation sequence pushes `num_bytes` above
the bound. -/
theorem runOps_num_bytes_le {K : Type} [DecidableEq K] (B : Nat) (m0 : CacheMetrics) :
    ∀ (ops : List (CacheOp K)) (c : NeedMutMemorySizedCache K), InvFull m0 c →
      c.capacity = Capacity.InBytes B → c.num_bytes ≤ B →
      (runOps c ops).num_bytes ≤ B := by
  intro ops
  induction ops with
  | nil => exact fun c _ _ hle => hle
  | cons op ops ih =>
    intro c h hcap hle
    obtain ⟨h1, hcap1⟩ := applyOp_spec m0 c op h
    rw [runOps]
    refine ih _ h1 (by rw [hcap1, hcap]) ?_
    cases op with
    | get key now =>
      have := (get_counts c key now).2
      rw [show applyOp c (CacheOp.get key now) = (c.get key now).2 from rfl, this]
      exact hle
    | put key bytes now => exact put_num_bytes_le B m0 c key bytes now h hcap hle

/-- Fuel-based, structurally computable companion of `put_core`; used to
evaluate the cache on concrete inputs inside kernel-checked proofs. -/
def put_core_fuel {K : Type} [DecidableEq K] (c : NeedMutMemorySizedCache K)
    (key : K) (bytes : OwnedBytes) (now : Nat) : Option (NeedMutMemorySizedCache K × Bool) :=
  if c.capacity.exceeds_capacity bytes.length then some (c, false)
  else
    match eviction_loop_fuel (c.pop_existing key).lru_cache.length
        (c.pop_existing key) now bytes.length with
    | some (c2, true) =>
      let c3 := c2.record_item bytes.length
      some ({ c3 with lru_cache := lru_put c3.lru_cache key now bytes }, true)
    | some (c2, false) => some (c2, false)
    | none => none

/-- The fuel-based companion always computes `put_core`. -/
theorem put_core_eq_fuel {K : Type} [DecidableEq K] (c : NeedMutMemorySizedCache K)
    (key : K) (bytes : OwnedBytes) (now : Nat) :
    put_core_fuel c key bytes now = some (c.put_core key bytes now) := by
  unfold put_core_fuel
  by_cases hov : c.capacity.exceeds_capacity bytes.length
  · rw [NeedMutMemorySizedCache.put_core]
    simp [hov]
  · rcases hl : (c.pop_existing key).eviction_loop now bytes.length with ⟨c2, ok⟩
    have hf := eviction_loop_fuel_sufficient (c.pop_existing key).lru_cache.length
      (c.pop_existing key) now bytes.length le_rfl
    rw [hl] at hf
    rw [hf]
    cases ok
    · rw [put_core_of_abort (by simpa using hov) hl]
      simp [show c.capacity.exceeds_capacity bytes.length = false by simpa using hov]
    · rw [put_core_of_insert (by simpa using hov) hl]
      simp [show c.capacity.exceeds_capacity bytes.length = false by simpa using hov]

/-- Evaluation principle for `put_core` on concrete inputs. -/
theorem put_core_eval {K : Type} [DecidableEq K] {c : NeedMutMemorySizedCache K}
    {key : K} {bytes : OwnedBytes} {now : Nat} {r : NeedMutMemorySizedCache K × Bool}
    (h : put_core_fuel c key bytes now = some r) : c.put_core key bytes now = r := by
  have := put_core_eq_fuel c key bytes now
  rw [h] at this
  exact (Option.some_inj.mp this).symm

/-- Evaluation principle for `put` on concrete inputs. -/
theorem put_eval {K : Type} [DecidableEq K] {c : NeedMutMemorySizedCache K}
    {key : K} {bytes : OwnedBytes} {now : Nat} {r : NeedMutMemorySizedCache K} {b : Bool}
    (h : put_core_fuel c key bytes now = some (r, b)) : c.put key bytes now = r := by
  rw [NeedMutMemorySizedCache.put, put_core_eval h]

/-! ### The unlimited-capacity cache never rejects and never evicts -/

/-- A key different from the popped one stays among the keys. -/
theorem mem_keys_lru_pop_of_ne {K : Type} [DecidableEq K] {l : List (K × Nat × OwnedBytes)}
    {key a : K} (hne : a ≠ key) (ha : a ∈ l.map Prod.fst) :
    a ∈ ((lru_pop l key).2).map Prod.fst := by
  rcases hr : (lru_pop l key).1 with _ | ⟨t, v⟩
  · rw [lru_pop_snd_of_none hr]
    exact ha
  · obtain ⟨l1, l2, hdecomp, hsnd, _⟩ := lru_pop_fst_eq_some hr
    rw [hsnd, List.map_append]
    rw [hdecomp, List.map_append] at ha
    rcases List.mem_append.mp ha with h1 | h2
    · exact List.mem_append.mpr (Or.inl h1)
    · simp only [List.map_cons, List.mem_cons] at h2
      rcases h2 with h2 | h2
      · exact absurd h2 hne
      · exact List.mem_append.mpr (Or.inr h2)

/-- `get` never removes a key. -/
theorem keys_subset_get {K : Type} [DecidableEq K] (c : NeedMutMemorySizedCache K)
    (key : K) (now : Nat) (a : K) (ha : a ∈ keysOf c) : a ∈ keysOf (c.get key now).2 := by
  rcases hr : (lru_pop c.lru_cache key).1 with _ | ⟨t, v⟩
  · rw [get_of_none now hr]
    exact ha
  · rw [get_of_some now hr]
    simp only [keysOf, List.map_append]
    by_cases hak : a = key
    · subst hak
      exact List.mem_append.mpr (Or.inr (by simp))
    · exact List.mem_append.mpr (Or.inl (mem_keys_lru_pop_of_ne hak ha))

/-- The replacement-removal phase keeps every other key. -/
theorem mem_keys_pop_existing_of_ne {K : Type} [DecidableEq K]
    {c : NeedMutMemorySizedCache K} {key a : K} (hne : a ≠ key) (ha : a ∈ keysOf c) :
    a ∈ keysOf (c.pop_existing key) := by
  rcases hr : (lru_pop c.lru_cache key).1 with _ | ⟨t, v⟩
  · rw [pop_existing_of_none hr]
    exact ha
  · rw [pop_existing_of_some hr]
    simp only [keysOf, drop_item_lru_cache]
    exact mem_keys_lru_pop_of_ne hne ha

/-- Under unlimited capacity, `put` always records and inserts its entry. -/
theorem put_core_unlimited {K : Type} [DecidableEq K] (c : NeedMutMemorySizedCache K)
    (key : K) (bytes : OwnedBytes) (now : Nat)
    (hcap : c.capacity = Capacity.Unlimited) :
    c.put_core key bytes now =
      ({ (c.pop_existing key).record_item bytes.length with
          lru_cache :=
            lru_put ((c.pop_existing key).record_item bytes.length).lru_cache key now bytes },
       true) := by
  have hov : c.capacity.exceeds_capacity bytes.length = false := by
    rw [hcap]; rfl
  have hl : (c.pop_existing key).eviction_loop now bytes.length = (c.pop_existing key, true) :=
    NeedMutMemorySizedCache.eviction_loop_done _ _ _
      (by rw [pop_existing_capacity, hcap]; rfl)
  exact put_core_of_insert hov hl

/-- Under unlimited capacity, `put` keeps every key (the put key included). -/
theorem keys_subset_put_unlimited {K : Type} [DecidableEq K] (c : NeedMutMemorySizedCache K)
    (key : K) (bytes : OwnedBytes) (now : Nat)
    (hcap : c.capacity = Capacity.Unlimited) (a : K) (ha : a ∈ keysOf c) :
    a ∈ keysOf (c.put key bytes now) := by
  rw [NeedMutMemorySizedCache.put, put_core_unlimited c key bytes now hcap]
  simp only [keysOf, lru_put, record_item_lru_cache, List.map_append]
  by_cases hak : a = key
  · subst hak
    exact List.mem_append.mpr (Or.inr (by simp))
  · refine List.mem_append.mpr (Or.inl ?_)
    exact mem_keys_lru_pop_of_ne hak (mem_keys_pop_existing_of_ne hak ha)

/-- Under unlimited capacity, any single operation keeps the capacity and
every key. -/
theorem applyOp_unlimited {K : Type} [DecidableEq K] (c : NeedMutMemorySizedCache K)
    (op : CacheOp K) (hcap : c.capacity = Capacity.Unlimited) :
    (applyOp c op).capacity = Capacity.Unlimited ∧
    ∀ a, a ∈ keysOf c → a ∈ keysOf (applyOp c op) := by
  cases op with
  | get key now =>
    refine ⟨?_, fun a ha => keys_subset_get c key now a ha⟩
    rw [show applyOp c (CacheOp.get key now) = (c.get key now).2 from rfl, get_capacity, hcap]
  | put key bytes now =>
    refine ⟨?_, fun a ha => keys_subset_put_unlimited c key bytes now hcap a ha⟩
    show (c.put key bytes now).capacity = Capacity.Unlimited
    rw [NeedMutMemorySizedCache.put, put_core_unlimited c key bytes now hcap]
    show ((c.pop_existing key).record_item bytes.length).capacity = Capacity.Unlimited
    rw [record_item_capacity, pop_existing_capacity, hcap]

/-- Under unlimited capacity, no operation sequence ever loses a key. -/
theorem runOps_unlimited_keys {K : Type} [DecidableEq K] :
    ∀ (ops : List (CacheOp K)) (c : NeedMutMemorySizedCache K),
      c.capacity = Capacity.Unlimited →
      ∀ a, a ∈ keysOf c → a ∈ keysOf (runOps c ops) := by
  intro ops
  induction ops with
  | nil => exact fun c _ a ha => ha
  | cons op ops ih =>
    intro c hcap a ha
    obtain ⟨hcap1, hkeys⟩ := applyOp_unlimited c op hcap
    rw [runOps]
    exact ih _ hcap1 a (hkeys a ha)

/-- A concrete metrics state used for concrete instantiations. -/
def exampleMetrics : CacheMetrics := ⟨0, 0, 0, 0, 0⟩

/-! ## The claims -/

/-- **C1**: for every sequence of get/put operations starting from a freshly
constructed cache, after each operation `num_items` equals the number of
entries in the eviction store and `num_bytes` equals the sum of the byte
lengths of the values of all entries currently in the store. (Every prefix
of an operation sequence is itself an operation sequence, so quantifying
over all sequences covers the state after each operation.) -/
theorem claim_C1_resident_accounting {K : Type} [DecidableEq K] (capacity : Capacity)
    (m0 : CacheMetrics) (ops : List (CacheOp K)) :
    (runOps (NeedMutMemorySizedCache.with_capacity K capacity m0) ops).num_items =
      (runOps (NeedMutMemorySizedCache.with_capacity K capacity m0) ops).lru_cache.length ∧
    (runOps (NeedMutMemorySizedCache.with_capacity K capacity m0) ops).num_bytes =
      sum_bytes (runOps (NeedMutMemorySizedCache.with_capacity K capacity m0) ops).lru_cache := by
  obtain ⟨⟨h1, h2, _⟩, _, _⟩ :=
    (runOps_spec m0 ops _ (InvFull_with_capacity K capacity m0)).1
  exact ⟨h1, h2⟩

/-- **C2**: on a cache constructed with capacity `Bounded(B)`, after every
operation sequence starting from the empty cache (in particular after every
`put` that inserts its value), `num_bytes ≤ B`. -/
theorem claim_C2_bounded_budget {K : Type} [DecidableEq K] (B : Nat) (m0 : CacheMetrics)
    (ops : List (CacheOp K)) :
    (runOps (NeedMutMemorySizedCache.with_capacity K (Capacity.InBytes B) m0) ops).num_bytes
      ≤ B :=
  runOps_num_bytes_le B m0 ops _ (InvFull_with_capacity K _ m0) rfl (Nat.zero_le B)

/-- **C5**: a `put` of a value longer than the bounded capacity changes
nothing at all — the state after the call is the state before it, and the
value is not inserted (the oversized guard fires before any mutation,
including the replacement-removal). -/
theorem claim_C5_oversized_put_is_noop {K : Type} [DecidableEq K]
    (c : NeedMutMemorySizedCache K) (key : K) (bytes : OwnedBytes) (now : Nat) (B : Nat)
    (hcap : c.capacity = Capacity.InBytes B) (hlen : B < bytes.length) :
    c.put key bytes now = c ∧ (c.put_core key bytes now).2 = false := by
  have hov : c.capacity.exceeds_capacity bytes.length = true := by
    rw [hcap]
    simpa [Capacity.exceeds_capacity] using hlen
  rw [NeedMutMemorySizedCache.put, put_core_of_oversized now hov]
  exact ⟨rfl, rfl⟩

/-- **C5** witness: a 6-byte value on a 5-byte cache holding one entry. -/
theorem claim_C5_oversized_put_is_noop_witness :
    (⟨[(3, 0, [1, 2])], 1, 2, Capacity.InBytes 5, exampleMetrics⟩ :
        NeedMutMemorySizedCache Nat).put 9 [1, 2, 3, 4, 5, 6] 7 =
      ⟨[(3, 0, [1, 2])], 1, 2, Capacity.InBytes 5, exampleMetrics⟩ ∧
    ((⟨[(3, 0, [1, 2])], 1, 2, Capacity.InBytes 5, exampleMetrics⟩ :
        NeedMutMemorySizedCache Nat).put_core 9 [1, 2, 3, 4, 5, 6] 7).2 = false :=
  claim_C5_oversized_put_is_noop _ 9 [1, 2, 3, 4, 5, 6] 7 5 rfl (by decide)

/-- **C8**: on a cache with unlimited capacity no operation ever evicts an
entry: every `put` records and inserts its value (neither the oversized
rejection nor the eviction loop is ever taken), and a key resident before an
arbitrary operation sequence is still resident after it — an entry can only
be replaced by a `put` with the same key, never removed. -/
theorem claim_C8_unbounded_never_evicts {K : Type} [DecidableEq K]
    (c : NeedMutMemorySizedCache K) (hcap : c.capacity = Capacity.Unlimited) :
    (∀ (key : K) (bytes : OwnedBytes) (now : Nat), (c.put_core key bytes now).2 = true) ∧
    (∀ (ops : List (CacheOp K)) (a : K), a ∈ keysOf c → a ∈ keysOf (runOps c ops)) := by
  constructor
  · intro key bytes now
    rw [put_core_unlimited c key bytes now hcap]
  · exact fun ops a ha => runOps_unlimited_keys ops c hcap a ha

/-- **C8** witness: an unbounded cache holding key 5 still holds it after a
large put and a get. -/
theorem claim_C8_unbounded_never_evicts_witness :
    ((⟨[(5, 0, [1, 2])], 1, 2, Capacity.Unlimited, exampleMetrics⟩ :
        NeedMutMemorySizedCache Nat).put_core 6 [7, 7, 7, 7] 3).2 = true ∧
    5 ∈ keysOf (runOps
      (⟨[(5, 0, [1, 2])], 1, 2, Capacity.Unlimited, exampleMetrics⟩ :
        NeedMutMemorySizedCache Nat)
      [CacheOp.put 6 [7, 7, 7, 7] 3, CacheOp.get 6 4]) :=
  ⟨(claim_C8_unbounded_never_evicts _ rfl).1 6 [7, 7, 7, 7] 3,
   (claim_C8_unbounded_never_evicts _ rfl).2 [CacheOp.put 6 [7, 7, 7, 7] 3, CacheOp.get 6 4]
     5 (by decide)⟩

/-- **C9**: tearing the cache down subtracts exactly the final `num_items`
and `num_bytes` from the metrics gauges, so after teardown the gauges are
back at their values from construction time — zero remaining contribution
from this cache. -/
theorem claim_C9_teardown_metrics {K : Type} [DecidableEq K] (capacity : Capacity)
    (m0 : CacheMetrics) (ops : List (CacheOp K)) :
    (runOps (NeedMutMemorySizedCache.with_capacity K capacity m0) ops).drop.in_cache_count =
      (runOps (NeedMutMemorySizedCache.with_capacity K capacity m0)
          ops).cache_counters.in_cache_count -
        ((runOps (NeedMutMemorySizedCache.with_capacity K capacity m0) ops).num_items : Int) ∧
    (runOps (NeedMutMemorySizedCache.with_capacity K capacity m0) ops).drop.in_cache_num_bytes =
      (runOps (NeedMutMemorySizedCache.with_capacity K capacity m0)
          ops).cache_counters.in_cache_num_bytes -
        ((runOps (NeedMutMemorySizedCache.with_capacity K capacity m0) ops).num_bytes : Int) ∧
    (runOps (NeedMutMemorySizedCache.with_capacity K capacity m0) ops).drop.in_cache_count =
      m0.in_cache_count ∧
    (runOps (NeedMutMemorySizedCache.with_capacity K capacity m0) ops).drop.in_cache_num_bytes =
      m0.in_cache_num_bytes := by
  obtain ⟨⟨_, _, _⟩, hic, hib⟩ :=
    (runOps_spec m0 ops _ (InvFull_with_capacity K capacity m0)).1
  refine ⟨rfl, rfl, ?_, ?_⟩
  · show (runOps (NeedMutMemorySizedCache.with_capacity K capacity m0)
        ops).cache_counters.in_cache_count -
      ((runOps (NeedMutMemorySizedCache.with_capacity K capacity m0) ops).num_items : Int) =
      m0.in_cache_count
    omega
  · show (runOps (NeedMutMemorySizedCache.with_capacity K capacity m0)
        ops).cache_counters.in_cache_num_bytes -
      ((runOps (NeedMutMemorySizedCache.with_capacity K capacity m0) ops).num_bytes : Int) =
      m0.in_cache_num_bytes
    omega

/-- **C10**: every `put` terminates — the eviction loop runs at most
store-size-many iterations: with fuel at least the current number of entries,
the fuel-indexed loop finishes (returns `some`) and computes exactly the
eviction loop's result. -/
theorem claim_C10_eviction_loop_terminates {K : Type} [DecidableEq K] (fuel : Nat)
    (c : NeedMutMemorySizedCache K) (now len : Nat) (h : c.lru_cache.length ≤ fuel) :
    eviction_loop_fuel fuel c now len = some (c.eviction_loop now len) :=
  eviction_loop_fuel_sufficient fuel c now len h

/-- **C10** witness: a two-entry store needs at most two iterations. -/
theorem claim_C10_eviction_loop_terminates_witness :
    (⟨[(0, 0, [1, 2, 3]), (1, 0, [4, 5])], 2, 5, Capacity.InBytes 5, exampleMetrics⟩ :
        NeedMutMemorySizedCache Nat).lru_cache.length ≤ 2 ∧
    eviction_loop_fuel 2
        (⟨[(0, 0, [1, 2, 3]), (1, 0, [4, 5])], 2, 5, Capacity.InBytes 5, exampleMetrics⟩ :
          NeedMutMemorySizedCache Nat) 100 4 =
      some ((⟨[(0, 0, [1, 2, 3]), (1, 0, [4, 5])], 2, 5, Capacity.InBytes 5, exampleMetrics⟩ :
          NeedMutMemorySizedCache Nat).eviction_loop 100 4) :=
  ⟨by decide,
   claim_C10_eviction_loop_terminates 2
     ⟨[(0, 0, [1, 2, 3]), (1, 0, [4, 5])], 2, 5, Capacity.InBytes 5, exampleMetrics⟩
     100 4 (by decide)⟩

/-- **C3** counterexample: on a 5-byte cache holding `0 ↦ [1,2,3]` (inserted
at time 0) and `1 ↦ [5,6]` (inserted at time 10), the call
`put 0 [9,9,9,9,9]` at time 30 makes the eviction loop meet the
least-recently-used entry `(1, 10, [5,6])`, which is only 20 seconds old, so
the put aborts — but the cache state is *not* the state from before the
call: the previous entry for key 0 was already removed and accounted out. -/
theorem claim_C3_counterexample :
    ((((NeedMutMemorySizedCache.with_capacity Nat (Capacity.InBytes 5) exampleMetrics).put
        0 [1, 2, 3] 0).put 1 [5, 6] 10).pop_existing 0).lru_cache = [(1, 10, [5, 6])] ∧
    30 - 10 < DO_NO_EVICT_DURATION_LIMIT ∧
    ((((NeedMutMemorySizedCache.with_capacity Nat (Capacity.InBytes 5) exampleMetrics).put
        0 [1, 2, 3] 0).put 1 [5, 6] 10).put_core 0 [9, 9, 9, 9, 9] 30).2 = false ∧
    (((NeedMutMemorySizedCache.with_capacity Nat (Capacity.InBytes 5) exampleMetrics).put
        0 [1, 2, 3] 0).put 1 [5, 6] 10).put 0 [9, 9, 9, 9, 9] 30 ≠
      ((NeedMutMemorySizedCache.with_capacity Nat (Capacity.InBytes 5) exampleMetrics).put
        0 [1, 2, 3] 0).put 1 [5, 6] 10 := by
  have e1 : (NeedMutMemorySizedCache.with_capacity Nat (Capacity.InBytes 5)
      exampleMetrics).put 0 [1, 2, 3] 0 =
      ⟨[(0, 0, [1, 2, 3])], 1, 3, Capacity.InBytes 5, ⟨1, 3, 0, 0, 0⟩⟩ :=
    put_eval (b := true) (by decide)
  have e2 : (⟨[(0, 0, [1, 2, 3])], 1, 3, Capacity.InBytes 5, ⟨1, 3, 0, 0, 0⟩⟩ :
      NeedMutMemorySizedCache Nat).put 1 [5, 6] 10 =
      ⟨[(0, 0, [1, 2, 3]), (1, 10, [5, 6])], 2, 5, Capacity.InBytes 5, ⟨2, 5, 0, 0, 0⟩⟩ :=
    put_eval (b := true) (by decide)
  have e3 : (⟨[(0, 0, [1, 2, 3]), (1, 10, [5, 6])], 2, 5, Capacity.InBytes 5,
        ⟨2, 5, 0, 0, 0⟩⟩ : NeedMutMemorySizedCache Nat).put_core 0 [9, 9, 9, 9, 9] 30 =
      (⟨[(1, 10, [5, 6])], 1, 2, Capacity.InBytes 5, ⟨1, 2, 0, 0, 0⟩⟩, false) :=
    put_core_eval (by decide)
  rw [e1, e2]
  refine ⟨by decide, by decide, by rw [e3], ?_⟩
  rw [NeedMutMemorySizedCache.put, e3]
  decide

/-- **C3** (amended): when `put` passes the oversized guard and the eviction
loop's first iteration meets a least-recently-used entry accessed less than
60 seconds before the put's start, the entire put is aborted: the new value
is not inserted and the cache state is exactly the state after the
replacement-removal phase — i.e. the state from when `put` was called except
that any previous entry for the put key has already been removed and
accounted out of `num_items`/`num_bytes`. -/
theorem claim_C3_anti_thrashing_abort {K : Type} [DecidableEq K]
    (c : NeedMutMemorySizedCache K) (key : K) (bytes : OwnedBytes) (now : Nat)
    (k0 : K) (t0 : Nat) (v0 : OwnedBytes) (rest : List (K × Nat × OwnedBytes))
    (hov : c.capacity.exceeds_capacity bytes.length = false)
    (hex : (c.pop_existing key).capacity.exceeds_capacity
      ((c.pop_existing key).num_bytes + bytes.length) = true)
    (hlru : (c.pop_existing key).lru_cache = (k0, t0, v0) :: rest)
    (hyoung : now - t0 < DO_NO_EVICT_DURATION_LIMIT) :
    c.put key bytes now = c.pop_existing key ∧ (c.put_core key bytes now).2 = false := by
  have hl : (c.pop_existing key).eviction_loop now bytes.length =
      (c.pop_existing key, false) :=
    NeedMutMemorySizedCache.eviction_loop_young _ now bytes.length k0 t0 v0 rest hex hlru
      hyoung
  rw [NeedMutMemorySizedCache.put, put_core_of_abort hov hl]
  exact ⟨rfl, rfl⟩

/-- **C3** witness: the counterexample state, through the amended theorem. -/
theorem claim_C3_anti_thrashing_abort_witness :
    (⟨[(0, 0, [1, 2, 3]), (1, 10, [5, 6])], 2, 5, Capacity.InBytes 5, exampleMetrics⟩ :
        NeedMutMemorySizedCache Nat).put 0 [9, 9, 9, 9, 9] 30 =
      (⟨[(0, 0, [1, 2, 3]), (1, 10, [5, 6])], 2, 5, Capacity.InBytes 5, exampleMetrics⟩ :
        NeedMutMemorySizedCache Nat).pop_existing 0 ∧
    ((⟨[(0, 0, [1, 2, 3]), (1, 10, [5, 6])], 2, 5, Capacity.InBytes 5, exampleMetrics⟩ :
        NeedMutMemorySizedCache Nat).put_core 0 [9, 9, 9, 9, 9] 30).2 = false :=
  claim_C3_anti_thrashing_abort _ 0 [9, 9, 9, 9, 9] 30 1 10 [5, 6] [] (by decide)
    (by decide) (by decide) (by decide)

/-- **C4** counterexample: on a cache with capacity `Bounded(0)`, a `put` of
a zero-length value is admitted — the store is not left empty. -/
theorem claim_C4_counterexample :
    ((NeedMutMemorySizedCache.with_capacity Nat (Capacity.InBytes 0) exampleMetrics).put
        7 [] 0).lru_cache ≠ [] := by
  have e1 : (NeedMutMemorySizedCache.with_capacity Nat (Capacity.InBytes 0)
      exampleMetrics).put 7 [] 0 =
      ⟨[(7, 0, [])], 1, 0, Capacity.InBytes 0, ⟨1, 0, 0, 0, 0⟩⟩ :=
    put_eval (b := true) (by decide)
  rw [e1]
  decide

/-- **C4** (amended): with capacity `Bounded(0)`, every `put` of a value with
at least one byte changes nothing (it is rejected outright by the oversized
guard); a zero-length value, however, is admitted, so the store can hold
zero-length entries only: after any operation sequence from the fresh
`Bounded(0)` cache, `num_bytes` is 0 and every resident value is empty. -/
theorem claim_C4_bounded_zero {K : Type} [DecidableEq K] :
    (∀ (c : NeedMutMemorySizedCache K) (key : K) (bytes : OwnedBytes) (now : Nat),
      c.capacity = Capacity.InBytes 0 → 0 < bytes.length →
      c.put key bytes now = c ∧ (c.put_core key bytes now).2 = false) ∧
    (∀ (m0 : CacheMetrics) (ops : List (CacheOp K)),
      (runOps (NeedMutMemorySizedCache.with_capacity K (Capacity.InBytes 0) m0)
          ops).num_bytes = 0 ∧
      ∀ e, e ∈ (runOps (NeedMutMemorySizedCache.with_capacity K (Capacity.InBytes 0) m0)
          ops).lru_cache → e.2.2.length = 0) := by
  constructor
  · intro c key bytes now hcap hpos
    have hov : c.capacity.exceeds_capacity bytes.length = true := by
      rw [hcap]
      simp [Capacity.exceeds_capacity]
      omega
    rw [NeedMutMemorySizedCache.put, put_core_of_oversized now hov]
    exact ⟨rfl, rfl⟩
  · intro m0 ops
    have hle := runOps_num_bytes_le 0 m0 ops _ (InvFull_with_capacity K _ m0) rfl (le_refl 0)
    have hz : (runOps (NeedMutMemorySizedCache.with_capacity K (Capacity.InBytes 0) m0)
        ops).num_bytes = 0 := Nat.le_zero.mp hle
    refine ⟨hz, ?_⟩
    obtain ⟨⟨_, hbytes, _⟩, _, _⟩ :=
      (runOps_spec m0 ops _ (InvFull_with_capacity K (Capacity.InBytes 0) m0)).1
    intro e he
    have hsum : sum_bytes (runOps (NeedMutMemorySizedCache.with_capacity K
        (Capacity.InBytes 0) m0) ops).lru_cache = 0 := by
      rw [← hbytes]
      exact hz
    have hmem : e.2.2.length ∈ ((runOps (NeedMutMemorySizedCache.with_capacity K
        (Capacity.InBytes 0) m0) ops).lru_cache.map (fun x => x.2.2.length)) :=
      List.mem_map_of_mem _ he
    exact List.sum_eq_zero_iff.mp hsum _ hmem

/-- **C4** witness: a one-byte value is rejected by the `Bounded(0)` cache. -/
theorem claim_C4_bounded_zero_witness :
    (⟨[], 0, 0, Capacity.InBytes 0, exampleMetrics⟩ : NeedMutMemorySizedCache Nat).put
        1 [9] 5 =
      ⟨[], 0, 0, Capacity.InBytes 0, exampleMetrics⟩ ∧
    ((⟨[], 0, 0, Capacity.InBytes 0, exampleMetrics⟩ :
        NeedMutMemorySizedCache Nat).put_core 1 [9] 5).2 = false :=
  (claim_C4_bounded_zero (K := Nat)).1 _ 1 [9] 5 rfl (by decide)

/-- In a decomposed list with the decomposition key absent from both sides,
an entry carrying that key is exactly the middle one. -/
theorem mem_decomp_key {K : Type} [DecidableEq K] {l1 l2 : List (K × Nat × OwnedBytes)}
    {key : K} (hnot1 : key ∉ l1.map Prod.fst) (hkey2 : key ∉ l2.map Prod.fst)
    (t0 : Nat) (v0 : OwnedBytes) (t : Nat) (v : OwnedBytes) :
    ((key, t, v) ∈ l1 ++ (key, t0, v0) :: l2) ↔ (t = t0 ∧ v = v0) := by
  constructor
  · intro h
    rcases List.mem_append.mp h with h1 | h2
    · exact absurd (List.mem_map.mpr ⟨_, h1, rfl⟩) hnot1
    · rcases List.mem_cons.mp h2 with h3 | h4
      · simpa using h3
      · exact absurd (List.mem_map.mpr ⟨_, h4, rfl⟩) hkey2
  · rintro ⟨rfl, rfl⟩
    exact List.mem_append.mpr (Or.inr (List.mem_cons_self _ _))

/-- The key-to-value association is unchanged by a `get` hit: an entry
`(k, v)` exists (at some timestamp) in the promoted-and-refreshed list
exactly when it exists in the original decomposed list. -/
theorem mem_entry_get_iff {K : Type} [DecidableEq K] {l1 l2 : List (K × Nat × OwnedBytes)}
    {key : K} {t0 now : Nat} {v0 : OwnedBytes}
    (hnot1 : key ∉ l1.map Prod.fst) (hkey2 : key ∉ l2.map Prod.fst)
    (k : K) (v : OwnedBytes) :
    (∃ t, (k, t, v) ∈ (l1 ++ l2) ++ [(key, now, v0)]) ↔
      (∃ t, (k, t, v) ∈ l1 ++ (key, t0, v0) :: l2) := by
  by_cases hk : k = key
  · subst hk
    constructor
    · rintro ⟨t, hmem⟩
      rcases List.mem_append.mp hmem with h12 | hlast
      · rcases List.mem_append.mp h12 with h1 | h2
        · exact absurd (List.mem_map.mpr ⟨_, h1, rfl⟩) hnot1
        · exact absurd (List.mem_map.mpr ⟨_, h2, rfl⟩) hkey2
      · simp only [List.mem_singleton] at hlast
        obtain ⟨-, rfl⟩ : t = now ∧ v = v0 := by simpa using hlast
        exact ⟨t0, (mem_decomp_key hnot1 hkey2 t0 v t0 v).mpr ⟨rfl, rfl⟩⟩
    · rintro ⟨t, hmem⟩
      obtain ⟨-, rfl⟩ := (mem_decomp_key hnot1 hkey2 t0 v0 t v).mp hmem
      exact ⟨now, List.mem_append.mpr (Or.inr (by simp))⟩
  · constructor
    · rintro ⟨t, hmem⟩
      rcases List.mem_append.mp hmem with h12 | hlast
      · rcases List.mem_append.mp h12 with h1 | h2
        · exact ⟨t, List.mem_append.mpr (Or.inl h1)⟩
        · exact ⟨t, List.mem_append.mpr (Or.inr (List.mem_cons_of_mem _ h2))⟩
      · simp only [List.mem_singleton] at hlast
        have : k = key := by
          have := congrArg Prod.fst hlast
          simpa using this
        exact absurd this hk
    · rintro ⟨t, hmem⟩
      rcases List.mem_append.mp hmem with h1 | h2
      · exact ⟨t, List.mem_append.mpr (Or.inl (List.mem_append.mpr (Or.inl h1)))⟩
      · rcases List.mem_cons.mp h2 with h3 | h4
        · have : k = key := by
            have := congrArg Prod.fst h3
            simpa using this
          exact absurd this hk
        · exact ⟨t, List.mem_append.mpr (Or.inl (List.mem_append.mpr (Or.inr h4)))⟩

/-- **C6**: on a cache whose store has unique keys (true of every reachable
state), `get key` returns `some v` exactly when an entry for `key` with value
`v` is resident and `none` exactly when no entry for `key` is resident; it
never changes `num_items`, `num_bytes` or the key-to-value association; on a
hit it re-inserts the entry with its timestamp refreshed to `now` and bumps
the hit counters by one item and by the value's byte length; on a miss it
changes nothing but the miss counter. -/
theorem claim_C6_get_contract {K : Type} [DecidableEq K] (c : NeedMutMemorySizedCache K)
    (key : K) (now : Nat) (hnd : (c.lru_cache.map Prod.fst).Nodup) :
    ((c.get key now).2.num_items = c.num_items ∧
     (c.get key now).2.num_bytes = c.num_bytes ∧
     (∀ (k : K) (v : OwnedBytes),
       (∃ t, (k, t, v) ∈ (c.get key now).2.lru_cache) ↔ (∃ t, (k, t, v) ∈ c.lru_cache))) ∧
    (∀ v, (c.get key now).1 = some v ↔ ∃ t, (key, t, v) ∈ c.lru_cache) ∧
    ((c.get key now).1 = none ↔ ∀ t v, (key, t, v) ∉ c.lru_cache) ∧
    (∀ v, (c.get key now).1 = some v →
      (key, now, v) ∈ (c.get key now).2.lru_cache ∧
      (c.get key now).2.cache_counters =
        { c.cache_counters with
          hits_num_items := c.cache_counters.hits_num_items + 1
          hits_num_bytes := c.cache_counters.hits_num_bytes + v.length }) ∧
    ((c.get key now).1 = none →
      (c.get key now).2 =
        { c with
          cache_counters :=
            { c.cache_counters with
              misses_num_items := c.cache_counters.misses_num_items + 1 } }) := by
  rcases hr : (lru_pop c.lru_cache key).1 with _ | ⟨t0, v0⟩
  · have hkey := (lru_pop_fst_eq_none_iff c.lru_cache key).mp hr
    rw [get_of_none now hr]
    refine ⟨⟨rfl, rfl, fun k v => Iff.rfl⟩, ?_, ?_, ?_, fun _ => rfl⟩
    · intro v
      constructor
      · intro h
        exact absurd h (by simp)
      · rintro ⟨t, hmem⟩
        exact absurd (List.mem_map.mpr ⟨_, hmem, rfl⟩) hkey
    · constructor
      · intro _ t v hmem
        exact hkey (List.mem_map.mpr ⟨_, hmem, rfl⟩)
      · intro _
        rfl
    · intro v h
      exact absurd h (by simp)
  · rw [get_of_some now hr]
    obtain ⟨l1, l2, hdecomp, hsnd, hnot1⟩ := lru_pop_fst_eq_some hr
    have hmainnd : (l1.map Prod.fst ++ key :: l2.map Prod.fst).Nodup := by
      rw [hdecomp] at hnd
      simpa using hnd
    obtain ⟨-, hndc, -⟩ := List.nodup_append.mp hmainnd
    have hkey2 : key ∉ l2.map Prod.fst := (List.nodup_cons.mp hndc).1
    refine ⟨⟨rfl, rfl, ?_⟩, ?_, ?_, ?_, ?_⟩
    · intro k v
      show (∃ t, (k, t, v) ∈ (lru_pop c.lru_cache key).2 ++ [(key, now, v0)]) ↔
        (∃ t, (k, t, v) ∈ c.lru_cache)
      rw [hsnd, hdecomp]
      exact mem_entry_get_iff hnot1 hkey2 k v
    · intro v
      rw [hdecomp]
      constructor
      · intro h
        obtain rfl : v0 = v := Option.some_inj.mp h
        exact ⟨t0, (mem_decomp_key hnot1 hkey2 t0 v0 t0 v0).mpr ⟨rfl, rfl⟩⟩
      · rintro ⟨t, hmem⟩
        obtain ⟨-, rfl⟩ := (mem_decomp_key hnot1 hkey2 t0 v0 t v).mp hmem
        rfl
    · constructor
      · intro h
        exact absurd h (by simp)
      · intro h
        have : (key, t0, v0) ∈ c.lru_cache := by
          rw [hdecomp]
          exact List.mem_append.mpr (Or.inr (List.mem_cons_self _ _))
        exact absurd this (h t0 v0)
    · intro v h
      obtain rfl : v0 = v := Option.some_inj.mp h
      refine ⟨?_, rfl⟩
      show (key, now, v0) ∈ (lru_pop c.lru_cache key).2 ++ [(key, now, v0)]
      exact List.mem_append.mpr (Or.inr (by simp))
    · intro h
      exact absurd h (by simp)

/-- **C6** witness: a hit and its effects on a concrete two-entry store. -/
theorem claim_C6_get_contract_witness :
    ((⟨[(0, 0, [1, 2, 3]), (1, 10, [5, 6])], 2, 5, Capacity.InBytes 5, exampleMetrics⟩ :
        NeedMutMemorySizedCache Nat).get 0 30).1 = some [1, 2, 3] ↔
      ∃ t, ((0 : Nat), t, ([1, 2, 3] : OwnedBytes)) ∈
        (⟨[(0, 0, [1, 2, 3]), (1, 10, [5, 6])], 2, 5, Capacity.InBytes 5, exampleMetrics⟩ :
          NeedMutMemorySizedCache Nat).lru_cache :=
  ((claim_C6_get_contract
      ⟨[(0, 0, [1, 2, 3]), (1, 10, [5, 6])], 2, 5, Capacity.InBytes 5, exampleMetrics⟩
      0 30 (by decide)).2.1) [1, 2, 3]

/-- Popping a key that occurs only as the last entry returns that entry and
the prefix. -/
theorem lru_pop_append_last {K : Type} [DecidableEq K] (A : List (K × Nat × OwnedBytes))
    (key : K) (t : Nat) (v : OwnedBytes) (hA : key ∉ A.map Prod.fst) :
    lru_pop (A ++ [(key, t, v)]) key = (some (t, v), A) := by
  induction A with
  | nil => simp [lru_pop]
  | cons e rest ih =>
    obtain ⟨k0, t0, v0⟩ := e
    have hk : ¬ (k0 = key) := by
      intro h
      exact hA (by simp [h])
    have hrest : key ∉ rest.map Prod.fst := by
      intro h
      exact hA (by simp [h])
    simp only [List.cons_append, lru_pop, if_neg hk]
    rw [show lru_pop (rest.append [(key, t, v)]) key = (some (t, v), rest) from ih hrest]

/-- Filtering for a key absent from a list gives nothing. -/
theorem filter_key_eq_nil {K : Type} [DecidableEq K] (A : List (K × Nat × OwnedBytes))
    (key : K) (hA : key ∉ A.map Prod.fst) :
    A.filter (fun e => decide (e.1 = key)) = [] := by
  induction A with
  | nil => rfl
  | cons e rest ih =>
    have hk : ¬ (e.1 = key) := by
      intro h
      exact hA (by rw [List.map_cons]; exact List.mem_cons.mpr (Or.inl h.symm))
    have hrest : key ∉ rest.map Prod.fst := by
      intro h
      exact hA (by rw [List.map_cons]; exact List.mem_cons.mpr (Or.inr h))
    simp [List.filter, hk, ih hrest]

/-- **C7**: if `put key bytes` is admitted (records and inserts its value),
an immediate second `put key bytes` leaves the store with exactly one entry
for the key — holding the same value, with the second put's timestamp — and
leaves `num_items` and `num_bytes` exactly as after the first put. -/
theorem claim_C7_put_idempotent {K : Type} [DecidableEq K] (m0 : CacheMetrics)
    (c : NeedMutMemorySizedCache K) (key : K) (bytes : OwnedBytes) (now1 now2 : Nat)
    (h : InvFull m0 c) (hins : (c.put_core key bytes now1).2 = true) :
    ((c.put key bytes now1).put key bytes now2).lru_cache.filter
        (fun e => decide (e.1 = key)) = [(key, now2, bytes)] ∧
    ((c.put key bytes now1).put key bytes now2).num_items =
      (c.put key bytes now1).num_items ∧
    ((c.put key bytes now1).put key bytes now2).num_bytes =
      (c.put key bytes now1).num_bytes := by
  by_cases hov : c.capacity.exceeds_capacity bytes.length
  · rw [put_core_of_oversized now1 hov] at hins
    simp at hins
  · have hov' : c.capacity.exceeds_capacity bytes.length = false := by simpa using hov
    obtain ⟨h1, hkey, hsub, hcapp, hbl⟩ := pop_existing_spec m0 c key h
    rcases hl : (c.pop_existing key).eviction_loop now1 bytes.length with ⟨c2, ok⟩
    obtain ⟨h2, hsub2, hcap2, hb2, hexit⟩ :=
      eviction_loop_spec m0 (c.pop_existing key).lru_cache.length
        (c.pop_existing key) now1 bytes.length rfl h1
    rw [hl] at h2 hsub2 hcap2 hb2 hexit
    simp only at h2 hsub2 hcap2 hb2 hexit
    cases ok
    · rw [put_core_of_abort hov' hl] at hins
      simp at hins
    · have hkey2 : key ∉ c2.lru_cache.map Prod.fst := by
        intro hmem
        obtain ⟨e, hemem, hefst⟩ := List.mem_map.mp hmem
        exact hkey (List.mem_map.mpr ⟨e, hsub2 e hemem, hefst⟩)
      have hnone2 : (lru_pop c2.lru_cache key).1 = none :=
        (lru_pop_fst_eq_none_iff _ _).mpr hkey2
      have hsnd2 : (lru_pop c2.lru_cache key).2 = c2.lru_cache := lru_pop_snd_of_none hnone2
      have hc1 : c.put key bytes now1 =
          { c2.record_item bytes.length with
            lru_cache := c2.lru_cache ++ [(key, now1, bytes)] } := by
        rw [NeedMutMemorySizedCache.put, put_core_of_insert hov' hl]
        simp only [lru_put, record_item_lru_cache, hsnd2]
      have hc1_lru : (c.put key bytes now1).lru_cache =
          c2.lru_cache ++ [(key, now1, bytes)] := by
        rw [hc1]
      have hc1_items : (c.put key bytes now1).num_items = c2.num_items + 1 := by
        rw [hc1]
        rfl
      have hc1_bytes : (c.put key bytes now1).num_bytes = c2.num_bytes + bytes.length := by
        rw [hc1]
        rfl
      have hc1_cap : (c.put key bytes now1).capacity = c2.capacity := by
        rw [hc1]
        rfl
      have hpop2 : lru_pop (c2.lru_cache ++ [(key, now1, bytes)]) key =
          (some (now1, bytes), c2.lru_cache) :=
        lru_pop_append_last c2.lru_cache key now1 bytes hkey2
      have hr2 : (lru_pop (c.put key bytes now1).lru_cache key).1 = some (now1, bytes) := by
        rw [hc1_lru, hpop2]
      have hsnd2x : (lru_pop (c.put key bytes now1).lru_cache key).2 = c2.lru_cache := by
        rw [hc1_lru, hpop2]
      have hpe2 := pop_existing_of_some hr2
      have hP_lru : ((c.put key bytes now1).pop_existing key).lru_cache = c2.lru_cache := by
        rw [hpe2]
        show (lru_pop (c.put key bytes now1).lru_cache key).2 = c2.lru_cache
        exact hsnd2x
      have hP_items : ((c.put key bytes now1).pop_existing key).num_items = c2.num_items := by
        rw [hpe2]
        show (c.put key bytes now1).num_items - 1 = c2.num_items
        rw [hc1_items]
        omega
      have hP_bytes : ((c.put key bytes now1).pop_existing key).num_bytes = c2.num_bytes := by
        rw [hpe2]
        show (c.put key bytes now1).num_bytes - bytes.length = c2.num_bytes
        rw [hc1_bytes]
        omega
      have hP_cap : ((c.put key bytes now1).pop_existing key).capacity = c2.capacity := by
        rw [hpe2]
        show (c.put key bytes now1).capacity = c2.capacity
        exact hc1_cap
      have hov2 : (c.put key bytes now1).capacity.exceeds_capacity bytes.length = false := by
        rw [hc1_cap, hcap2, hcapp]
        exact hov'
      have hl2 : ((c.put key bytes now1).pop_existing key).eviction_loop now2 bytes.length =
          ((c.put key bytes now1).pop_existing key, true) := by
        refine NeedMutMemorySizedCache.eviction_loop_done _ _ _ ?_
        rw [hP_cap, hP_bytes, hcap2]
        exact hexit rfl
      have hput2 : (c.put key bytes now1).put key bytes now2 =
          { ((c.put key bytes now1).pop_existing key).record_item bytes.length with
            lru_cache :=
              lru_put (((c.put key bytes now1).pop_existing key).record_item
                bytes.length).lru_cache key now2 bytes } := by
        rw [NeedMutMemorySizedCache.put, put_core_of_insert hov2 hl2]
      have hf_lru : ((c.put key bytes now1).put key bytes now2).lru_cache =
          c2.lru_cache ++ [(key, now2, bytes)] := by
        rw [hput2]
        show lru_put (((c.put key bytes now1).pop_existing key).record_item
          bytes.length).lru_cache key now2 bytes = c2.lru_cache ++ [(key, now2, bytes)]
        rw [lru_put, record_item_lru_cache, hP_lru, hsnd2]
      have hf_items : ((c.put key bytes now1).put key bytes now2).num_items =
          ((c.put key bytes now1).pop_existing key).num_items + 1 := by
        rw [hput2]
        rfl
      have hf_bytes : ((c.put key bytes now1).put key bytes now2).num_bytes =
          ((c.put key bytes now1).pop_existing key).num_bytes + bytes.length := by
        rw [hput2]
        rfl
      refine ⟨?_, ?_, ?_⟩
      · rw [hf_lru, List.filter_append, filter_key_eq_nil c2.lru_cache key hkey2]
        simp [List.filter]
      · rw [hf_items, hP_items, hc1_items]
      · rw [hf_bytes, hP_bytes, hc1_bytes]

/-- **C7** witness: inserting `0 ↦ [1,2,3]` twice into a fresh 10-byte
cache. -/
theorem claim_C7_put_idempotent_witness :
    (((NeedMutMemorySizedCache.with_capacity Nat (Capacity.InBytes 10)
          exampleMetrics).put 0 [1, 2, 3] 4).put 0 [1, 2, 3] 9).lru_cache.filter
        (fun e => decide (e.1 = 0)) = [(0, 9, [1, 2, 3])] ∧
    (((NeedMutMemorySizedCache.with_capacity Nat (Capacity.InBytes 10)
          exampleMetrics).put 0 [1, 2, 3] 4).put 0 [1, 2, 3] 9).num_items =
      ((NeedMutMemorySizedCache.with_capacity Nat (Capacity.InBytes 10)
          exampleMetrics).put 0 [1, 2, 3] 4).num_items ∧
    (((NeedMutMemorySizedCache.with_capacity Nat (Capacity.InBytes 10)
          exampleMetrics).put 0 [1, 2, 3] 4).put 0 [1, 2, 3] 9).num_bytes =
      ((NeedMutMemorySizedCache.with_capacity Nat (Capacity.InBytes 10)
          exampleMetrics).put 0 [1, 2, 3] 4).num_bytes :=
  claim_C7_put_idempotent exampleMetrics
    (NeedMutMemorySizedCache.with_capacity Nat (Capacity.InBytes 10) exampleMetrics)
    0 [1, 2, 3] 4 9
    (InvFull_with_capacity Nat (Capacity.InBytes 10) exampleMetrics)
    (by
      have e1 : (NeedMutMemorySizedCache.with_capacity Nat (Capacity.InBytes 10)
          exampleMetrics).put_core 0 [1, 2, 3] 4 =
          (⟨[(0, 4, [1, 2, 3])], 1, 3, Capacity.InBytes 10, ⟨1, 3, 0, 0, 0⟩⟩, true) :=
        put_core_eval (by decide)
      rw [e1])

end Quickwit
